import Mathlib

/-!
The file `reassemble.c` of mimocat: the reassembly buffer and the reorder buffer.

A shallow embedding of `reassemble.c`.

* `uint8_t` values are `Fin 256`.
* `size_t` values are natural numbers, every `size_t` operation of the source
  is reduced modulo `SIZE_MOD = 2 ^ 64` (`to_size_t`).
* A pointer is an address (`Nat`).  The pointer `incomplete`, which designates
  a whole heap allocation, is carried together with the bytes of that
  allocation (`allocation`), so that `realloc` and `memcpy` can act on them.
* `malloc` and `realloc` may fail; what the allocator answers is an argument
  (`Option alloc_answer`, `none` being a `NULL` result).
* A function that can hit a failed `assert` or touch memory outside the
  allocation returns an `Outcome`.
-/

namespace Mimocat

/-! ## Machine model -/

/-- A byte. -/
abbrev uint8_t := Fin 256

/-- Number of values of `size_t`. -/
def SIZE_MOD : Nat := 2 ^ 64

/-- Conversion of a mathematical integer to `size_t`. -/
def to_size_t (x : Int) : Nat := (x % (SIZE_MOD : Int)).toNat

/-- A live heap allocation: its address and its bytes. -/
structure allocation where
  addr : Nat
  bytes : List uint8_t
deriving DecidableEq, Repr

/-- What the allocator hands out when it succeeds: the address of the block and
the indeterminate contents of the bytes that are fresh in it (byte `i` of the
fresh part is `junk[i]`, or `0` past the end of `junk`). -/
structure alloc_answer where
  addr : Nat
  junk : List uint8_t
deriving DecidableEq, Repr

/-- Result of running a function of the source: it returns (`ok`), an `assert` fails and
the process is aborted (`abort`), or it touches memory outside an allocation, which is
undefined behaviour (`undefined`). -/
inductive Outcome (α : Type) where
  | ok (val : α) : Outcome α
  | abort : Outcome α
  | undefined : Outcome α
deriving DecidableEq, Repr

/-- The `n` fresh bytes of an allocator answer. -/
def fresh_bytes (a : alloc_answer) (n : Nat) : List uint8_t :=
  (List.range n).map (fun i => a.junk.getD i 0)

/-- The call `malloc(size)`: `none` is `NULL`. -/
def malloc (size : Nat) (ans : Option alloc_answer) : Option allocation :=
  match ans with
  | none => none
  | some a => some { addr := a.addr, bytes := fresh_bytes a size }

/-- The call `realloc(p, size)`: `none` is `NULL` (the old block is then untouched); on
success the new block starts with the first `min(old size, size)` bytes of the
old one, the rest is indeterminate. -/
def realloc (p : allocation) (size : Nat) (ans : Option alloc_answer) : Option allocation :=
  match ans with
  | none => none
  | some a =>
    some { addr := a.addr
           bytes := p.bytes.take size ++ fresh_bytes a (size - p.bytes.length) }

/-- The call `memcpy(dst, src, n)` into the allocation `dest`.  A copy of zero bytes
touches nothing; otherwise every byte read must lie in `src` and every byte
written in `dest`, else the behaviour is undefined (`none`). -/
def memcpy (dest : allocation) (dst : Nat) (src : List uint8_t) (n : Nat) : Option allocation :=
  if n = 0 then some dest
  else if dest.addr ≤ dst ∧ dst + n ≤ dest.addr + dest.bytes.length ∧ n ≤ src.length then
    some { dest with
           bytes := dest.bytes.take (dst - dest.addr) ++ src.take n
                      ++ dest.bytes.drop (dst - dest.addr + n) }
  else none

/-! ## The source -/

/-- Initial length of the reassembly buffer. -/
def INITIALBUFFER : Nat := 1024

/-- The state of step one, `struct reassembly_state`. -/
structure reassembly_state_t where
  writepos : Nat
  readpos : Nat
  incomplete : allocation
  incomplete_len : Nat
deriving DecidableEq, Repr

/-- Size of `reassembly_state_t`: three pointers and a `size_t`, eight bytes each. -/
def sizeof_reassembly_state_t : Nat := 32

/-- The function `initialize_reass`; `m_state` and `m_buf` are the answers of the two
`malloc` calls. -/
def initialize_reass (m_state m_buf : Option alloc_answer) : Outcome reassembly_state_t :=
  match malloc sizeof_reassembly_state_t m_state with
  | none => .abort
  | some _ =>
    match malloc (1 * INITIALBUFFER) m_buf with
    | none => .abort
    | some buf =>
      .ok { incomplete := buf
            writepos := buf.addr
            readpos := buf.addr
            incomplete_len := INITIALBUFFER }

/-- The function `push_data`: `data` is the object the pointer `data` points to, `len` the
parameter `len`, and `ans` the answer of the `realloc` call, should it be made.  The
subtractions of pointers and the `size_t` arithmetic are those of the source, reduced
modulo `SIZE_MOD`. -/
def push_data (data : List uint8_t) (len : Nat) (state : reassembly_state_t)
    (ans : Option alloc_answer) : Outcome reassembly_state_t :=
  let bytes_left : Nat :=
    to_size_t ((state.incomplete_len : Int) - ((state.writepos : Int) - state.incomplete.addr))
  let grown : Outcome reassembly_state_t :=
    if bytes_left < len then
      let grow : Nat := len
      let offset_w : Nat := to_size_t ((state.writepos : Int) - state.incomplete.addr)
      let offset_r : Nat := to_size_t ((state.readpos : Int) - state.incomplete.addr)
      match realloc state.incomplete (to_size_t ((state.incomplete_len : Int) + grow)) ans with
      | none => .abort
      | some newbuf =>
        .ok { incomplete := newbuf
              incomplete_len := to_size_t ((state.incomplete_len : Int) + grow)
              writepos := newbuf.addr + offset_w
              readpos := newbuf.addr + offset_r }
    else .ok state
  match grown with
  | .ok st =>
    match memcpy st.incomplete st.writepos data len with
    | none => .undefined
    | some buf => .ok { st with incomplete := buf, writepos := st.writepos + len }
  | .abort => .abort
  | .undefined => .undefined

/-! ## Vocabulary of the specification -/

/-- Offset of `readpos` from the base of the buffer. -/
def read_index (s : reassembly_state_t) : Int := (s.readpos : Int) - s.incomplete.addr

/-- Offset of `writepos` from the base of the buffer. -/
def write_index (s : reassembly_state_t) : Int := (s.writepos : Int) - s.incomplete.addr

/-- Recorded size of the buffer. -/
def capacity (s : reassembly_state_t) : Nat := s.incomplete_len

/-- Remaining free capacity, `capacity − write_index`. -/
def free_capacity (s : reassembly_state_t) : Int := (capacity s : Int) - write_index s

/-- The bytes of the buffer. -/
def buffer (s : reassembly_state_t) : List uint8_t := s.incomplete.bytes

/-- The unread region, the bytes at offsets `[read_index, write_index)`. -/
def unread (s : reassembly_state_t) : List uint8_t :=
  ((buffer s).drop (read_index s).toNat).take ((write_index s).toNat - (read_index s).toNat)

/-- The invariant `0 ≤ read_index ≤ write_index ≤ capacity`. -/
def Inv (s : reassembly_state_t) : Prop :=
  0 ≤ read_index s ∧ read_index s ≤ write_index s ∧ write_index s ≤ (capacity s : Int)

instance (s : reassembly_state_t) : Decidable (Inv s) := by
  unfold Inv; infer_instance

/-- The block `incomplete` points to has the size recorded in `incomplete_len`.  This ties
the field `incomplete_len` to the heap: `initialize_reass` establishes it and `push_data`
keeps it. -/
def Sized (s : reassembly_state_t) : Prop := s.incomplete.bytes.length = s.incomplete_len

instance (s : reassembly_state_t) : Decidable (Sized s) := by
  unfold Sized; infer_instance

/-- The buffer and a chunk of `len` bytes are two objects of one address space: their sizes
add up to less than `SIZE_MOD`, so `incomplete_len + len` does not wrap around. -/
def Fits (s : reassembly_state_t) (len : Nat) : Prop := s.incomplete_len + len < SIZE_MOD

instance (s : reassembly_state_t) (len : Nat) : Decidable (Fits s len) := by
  unfold Fits; infer_instance

/-- The chunk of the test in `main`. -/
def main_data : List uint8_t := [0x41, 0x41, 0x41, 0x41, 0x41, 0x41, 0x42]

/-- A finite sequence of `push_data` calls on one state: each call comes with its chunk and
with the answer of the allocator to the `realloc` it may make.  The sequence stops at the
first call that does not return. -/
def push_all : List (List uint8_t × Option alloc_answer) → reassembly_state_t →
    Outcome reassembly_state_t
  | [], s => .ok s
  | (data, ans) :: rest, s =>
    match push_data data data.length s ans with
    | .ok s' => push_all rest s'
    | .abort => .abort
    | .undefined => .undefined

/-- Number of bytes pushed by a sequence of calls. -/
def total_len (calls : List (List uint8_t × Option alloc_answer)) : Nat :=
  (calls.map (fun c => c.1.length)).sum

/-! ## Step two: the reorder buffer -/

/-- Modelled from the spec: the type `unpacked_cell_t`, declared in `mimocat.h`, which is not
among the sources.  It is the Cell of the specification: a `sequence` and a `payload`, the
`length` being the length of the payload. -/
structure unpacked_cell_t where
  sequence : Nat
  payload : List uint8_t
deriving DecidableEq, Repr

/-- The state of step two, `struct reordering_state`: `head` is the linked list of the cells
not yet processed, `last` (a `uint32_t`) the sequence number of the last cell processed, the
`last_emitted` of the specification. -/
structure reordering_state_t where
  head : List unpacked_cell_t
  last : Nat
deriving DecidableEq, Repr

namespace ReorderBuffer

/-- Modelled from the spec: step 2 of `insert`, which is not among the sources.  The cell is
put into the pending collection, kept in ascending order of `sequence`; a cell whose
`sequence` is already pending is rejected. -/
def insert_pending (cell : unpacked_cell_t) : List unpacked_cell_t → List unpacked_cell_t
  | [] => [cell]
  | x :: xs =>
    if cell.sequence < x.sequence then cell :: x :: xs
    else if cell.sequence = x.sequence then x :: xs
    else x :: insert_pending cell xs

/-- Modelled from the spec: step 3 of `insert`, which is not among the sources.  While the
pending collection is not empty and its lowest `sequence` is `last_emitted + 1`, that cell is
removed and emitted and `last_emitted` becomes its `sequence`.  The result is the state
reached and the cells emitted, in the order of emission. -/
def drain : List unpacked_cell_t → Nat → reordering_state_t × List unpacked_cell_t
  | [], last => ({ head := [], last := last }, [])
  | c :: rest, last =>
    if c.sequence = last + 1 then
      ((drain rest c.sequence).1, c :: (drain rest c.sequence).2)
    else ({ head := c :: rest, last := last }, [])

/-- Modelled from the spec: `ReorderBuffer.insert`, which is not among the sources (they
declare its state only).  A cell with `sequence ≤ last_emitted` is discarded (step 1),
otherwise it is inserted in order (step 2); then the contiguous cells are emitted (step 3).
The result is the state reached and the cells emitted, in the order of emission. -/
def insert (rb : reordering_state_t) (cell : unpacked_cell_t) :
    reordering_state_t × List unpacked_cell_t :=
  drain (if cell.sequence ≤ rb.last then rb.head else insert_pending cell rb.head) rb.last

/-- Modelled from the spec: the write calls the output sink receives for the cells emitted,
one call for each cell, its bytes being the payload of the cell. -/
def sink_writes (emitted : List unpacked_cell_t) : List (List uint8_t) :=
  emitted.map (fun c => c.payload)

/-- The pending cells are in strictly ascending order of `sequence`, all after
`last_emitted`. -/
def WellFormed (rb : reordering_state_t) : Prop :=
  rb.head.Pairwise (fun a b => a.sequence < b.sequence) ∧ ∀ x ∈ rb.head, rb.last < x.sequence

instance (rb : reordering_state_t) : Decidable (WellFormed rb) := by
  unfold WellFormed; infer_instance

end ReorderBuffer

/-! ## Step one: framing -/

/-- Modelled from the spec: the wire format of a cell, which the sources do not fix.  A header
of fixed size carries the `sequence` and the length of the payload; widths and byte order are
left to integration, so a format is the size of its header, the encoder of a header from a
sequence and a length, and its parser (`none` for a malformed header). -/
structure header_format where
  header_len : Nat
  encode_header : Nat → Nat → List uint8_t
  parse_header : List uint8_t → Option (Nat × Nat)

/-- Modelled from the spec: the bytes of a complete cell on the wire, its header followed by
exactly `length` bytes of payload. -/
def encode_cell (fmt : header_format) (c : unpacked_cell_t) : List uint8_t :=
  fmt.encode_header c.sequence c.payload.length ++ c.payload

/-- What `try_extract_cell` signals. -/
inductive extraction where
  | not_yet_available : extraction
  | framing_error : extraction
  | cell (c : unpacked_cell_t) : extraction
deriving DecidableEq, Repr

/-- Modelled from the spec: `try_extract_cell`, which is not among the sources.  If the unread
region holds a complete header, the header is parsed; if the region also holds the whole
payload, the cell is copied out and `readpos` moves past the bytes consumed.  Otherwise the
state is left as it is and "not yet available" is signalled.  A malformed header is a framing
error. -/
def try_extract_cell (fmt : header_format) (s : reassembly_state_t) :
    extraction × reassembly_state_t :=
  if (unread s).length < fmt.header_len then (.not_yet_available, s)
  else
    match fmt.parse_header ((unread s).take fmt.header_len) with
    | none => (.framing_error, s)
    | some (sequence, length) =>
      if (unread s).length < fmt.header_len + length then (.not_yet_available, s)
      else
        (.cell { sequence := sequence
                 payload := ((unread s).drop fmt.header_len).take length },
         { s with readpos := s.readpos + (fmt.header_len + length) })

/-- A small wire format: one byte of sequence, one byte of length. -/
def two_byte_format : header_format where
  header_len := 2
  encode_header := fun sequence length => [Fin.ofNat sequence, Fin.ofNat length]
  parse_header := fun bytes =>
    match bytes with
    | [a, b] => some (a.val, b.val)
    | _ => none

/-- Bytes of a buffer after a copy of `data` at offset `w`. -/
def spliced (bytes : List uint8_t) (w : Nat) (data : List uint8_t) : List uint8_t :=
  bytes.take w ++ data ++ bytes.drop (w + data.length)

/-! ## Basic facts -/

theorem to_size_t_of_lt (n : Nat) (h : n < SIZE_MOD) : to_size_t (n : Int) = n := by
  unfold to_size_t
  rw [Int.emod_eq_of_lt (by omega) (by exact_mod_cast h)]
  simp

theorem fresh_bytes_length (a : alloc_answer) (n : Nat) : (fresh_bytes a n).length = n := by
  simp [fresh_bytes]

theorem spliced_length (bytes : List uint8_t) (w : Nat) (data : List uint8_t)
    (h : w + data.length ≤ bytes.length) : (spliced bytes w data).length = bytes.length := by
  simp only [spliced, List.length_append, List.length_take, List.length_drop]
  omega

theorem spliced_take (bytes : List uint8_t) (w k : Nat) (data : List uint8_t)
    (hk : k ≤ w) (hw : w ≤ bytes.length) :
    (spliced bytes w data).take k = bytes.take k := by
  unfold spliced
  rw [List.append_assoc, List.take_append_of_le_length (by simp; omega), List.take_take]
  congr 1
  omega

theorem spliced_drop_take (bytes : List uint8_t) (w : Nat) (data : List uint8_t)
    (hw : w ≤ bytes.length) :
    ((spliced bytes w data).drop w).take data.length = data := by
  unfold spliced
  have hl : (List.take w bytes).length = w := by simp; omega
  rw [List.append_assoc, List.drop_append_of_le_length (by omega), List.drop_of_length_le (by omega)]
  simp

/-! ## `push_data` in closed form -/

/-- Closed form of `push_data` on a state whose write cursor lies in its buffer. -/
theorem push_data_eq (data : List uint8_t) (s : reassembly_state_t) (ans : Option alloc_answer)
    (w : Nat) (hw : s.writepos = s.incomplete.addr + w)
    (hwc : w ≤ s.incomplete_len) (hsz : Sized s) (hfit : Fits s data.length) :
    push_data data data.length s ans =
      if s.incomplete_len - w < data.length then
        match ans with
        | none => .abort
        | some a =>
          .ok { incomplete :=
                  { addr := a.addr
                    bytes := spliced (s.incomplete.bytes ++ fresh_bytes a data.length) w data }
                incomplete_len := s.incomplete_len + data.length
                writepos := a.addr + w + data.length
                readpos := a.addr + to_size_t ((s.readpos : Int) - s.incomplete.addr) }
      else
        .ok { s with
              incomplete := { s.incomplete with bytes := spliced s.incomplete.bytes w data }
              writepos := s.incomplete.addr + w + data.length } := by
  unfold Sized at hsz
  unfold Fits at hfit
  have e1 : to_size_t ((s.incomplete_len : Int) - ((s.writepos : Int) - s.incomplete.addr))
      = s.incomplete_len - w := by
    have : (s.incomplete_len : Int) - ((s.writepos : Int) - s.incomplete.addr)
        = ((s.incomplete_len - w : Nat) : Int) := by rw [hw]; push_cast; omega
    rw [this]; exact to_size_t_of_lt _ (by omega)
  have e2 : to_size_t ((s.writepos : Int) - s.incomplete.addr) = w := by
    have : (s.writepos : Int) - s.incomplete.addr = (w : Int) := by rw [hw]; push_cast; omega
    rw [this]; exact to_size_t_of_lt _ (by omega)
  have e3 : to_size_t ((s.incomplete_len : Int) + (data.length : Nat))
      = s.incomplete_len + data.length := by
    have : (s.incomplete_len : Int) + (data.length : Nat)
        = ((s.incomplete_len + data.length : Nat) : Int) := by push_cast; rfl
    rw [this]; exact to_size_t_of_lt _ hfit
  unfold push_data
  simp only [e1, e2, e3]
  by_cases hg : s.incomplete_len - w < data.length
  · simp only [hg, if_true]
    cases ans with
    | none => simp [realloc]
    | some a =>
      have hpos : data.length ≠ 0 := by omega
      simp only [realloc, memcpy, hpos, if_false, fresh_bytes_length, List.length_append,
        List.length_take, hsz]
      have hb : a.addr ≤ a.addr + w ∧
          a.addr + w + data.length
            ≤ a.addr + (min (s.incomplete_len + data.length) s.incomplete_len
                + (s.incomplete_len + data.length - s.incomplete_len)) ∧
          data.length ≤ data.length := by omega
      simp only [hb, and_self, if_true, spliced]
      have ht : List.take (s.incomplete_len + data.length) s.incomplete.bytes
          = s.incomplete.bytes := List.take_of_length_le (by omega)
      simp [ht]
  · simp only [hg, if_false]
    by_cases hpos : data.length = 0
    · have hd : data = [] := List.length_eq_zero.mp hpos
      subst hd
      simp [memcpy, spliced, hw]
    · have hb : s.incomplete.addr ≤ s.writepos ∧
          s.writepos + data.length ≤ s.incomplete.addr + s.incomplete.bytes.length ∧
          data.length ≤ data.length := by omega
      simp only [memcpy, hpos, if_false, hb, and_self, if_true, spliced]
      simp [hw]

/-- A push that needs more room aborts when `realloc` fails. -/
theorem push_data_abort (data : List uint8_t) (s : reassembly_state_t)
    (hw0 : 0 ≤ write_index s) (hwc : write_index s ≤ capacity s)
    (hsz : Sized s) (hfit : Fits s data.length)
    (hg : free_capacity s < data.length) :
    push_data data data.length s none = .abort := by
  simp only [write_index, capacity] at hw0 hwc
  simp only [free_capacity, write_index, capacity] at hg
  rw [push_data_eq data s none (s.writepos - s.incomplete.addr) (by omega) (by omega) hsz hfit]
  have : s.incomplete_len - (s.writepos - s.incomplete.addr) < data.length := by omega
  simp [this]

/-- A push that finds room, or whose `realloc` succeeds, returns; the state it returns
is described by the old one. -/
theorem push_data_ok (data : List uint8_t) (s : reassembly_state_t) (ans : Option alloc_answer)
    (hw0 : 0 ≤ write_index s) (hwc : write_index s ≤ capacity s)
    (hsz : Sized s) (hfit : Fits s data.length)
    (hans : free_capacity s < data.length → ans ≠ none) :
    ∃ s' : reassembly_state_t, push_data data data.length s ans = .ok s' ∧
      Sized s' ∧
      read_index s' = (if free_capacity s < data.length
                        then (to_size_t (read_index s) : Int) else read_index s) ∧
      write_index s' = write_index s + data.length ∧
      capacity s' = (if free_capacity s < data.length
                      then capacity s + data.length else capacity s) ∧
      (buffer s').take (write_index s).toNat = (buffer s).take (write_index s).toNat ∧
      ((buffer s').drop (write_index s).toNat).take data.length = data := by
  have hsz' := hsz
  unfold Sized at hsz'
  simp only [write_index, capacity] at hw0 hwc
  obtain ⟨w, hw⟩ : ∃ w : Nat, s.writepos = s.incomplete.addr + w :=
    ⟨s.writepos - s.incomplete.addr, by omega⟩
  have hwi : write_index s = w := by unfold write_index; omega
  have hwc' : w ≤ s.incomplete_len := by omega
  rw [push_data_eq data s ans w hw hwc' hsz hfit]
  unfold free_capacity at hans ⊢
  rw [hwi] at hans ⊢
  unfold capacity buffer at *
  simp only [Int.toNat_ofNat]
  by_cases hg : s.incomplete_len - w < data.length
  · have hg' : (s.incomplete_len : Int) - (w : Int) < (data.length : Int) := by omega
    simp only [hg, hg', if_true]
    cases ans with
    | none => exact absurd rfl (hans hg')
    | some a =>
      refine ⟨_, rfl, ?_, ?_, ?_, ?_, ?_, ?_⟩
      · simp only [Sized]
        rw [spliced_length _ _ _ (by simp [fresh_bytes_length]; omega)]
        simp [fresh_bytes_length, hsz']
      · simp only [read_index]; push_cast; omega
      · simp only [write_index]; push_cast; omega
      · rfl
      · simp only
        rw [spliced_take _ _ _ _ (le_refl w) (by simp; omega)]
        exact List.take_append_of_le_length (by omega)
      · simp only
        exact spliced_drop_take _ _ _ (by simp; omega)
  · have hg' : ¬ ((s.incomplete_len : Int) - (w : Int) < (data.length : Int)) := by omega
    simp only [hg, hg', if_false]
    refine ⟨_, rfl, ?_, ?_, ?_, ?_, ?_, ?_⟩
    · simp only [Sized]
      rw [spliced_length _ _ _ (by omega)]
      exact hsz'
    · simp only [read_index]
    · simp only [write_index]; push_cast; omega
    · rfl
    · simp only
      exact spliced_take _ _ _ _ (le_refl w) (by omega)
    · simp only
      exact spliced_drop_take _ _ _ (by omega)

theorem to_size_t_of_nonneg_lt (x : Int) (h0 : 0 ≤ x) (h1 : x < SIZE_MOD) :
    (to_size_t x : Int) = x := by
  obtain ⟨n, rfl⟩ := Int.eq_ofNat_of_zero_le h0
  rw [to_size_t_of_lt n (by exact_mod_cast h1)]

/-- Under the invariant a successful push keeps the read cursor, moves the write cursor by
the length of the chunk, and re-establishes the invariant. -/
theorem push_data_ok_inv (data : List uint8_t) (s : reassembly_state_t)
    (ans : Option alloc_answer)
    (hinv : Inv s) (hsz : Sized s) (hfit : Fits s data.length)
    (hans : free_capacity s < data.length → ans ≠ none) :
    ∃ s' : reassembly_state_t, push_data data data.length s ans = .ok s' ∧
      Inv s' ∧ Sized s' ∧
      read_index s' = read_index s ∧
      write_index s' = write_index s + data.length ∧
      capacity s' = (if free_capacity s < data.length
                      then capacity s + data.length else capacity s) ∧
      (buffer s').take (write_index s).toNat = (buffer s).take (write_index s).toNat ∧
      ((buffer s').drop (write_index s).toNat).take data.length = data := by
  obtain ⟨h0, h1, h2⟩ := hinv
  obtain ⟨s', hs', hsz', hr', hw', hc', hb1, hb2⟩ :=
    push_data_ok data s ans (le_trans h0 h1) h2 hsz hfit hans
  have hr : read_index s' = read_index s := by
    rw [hr']
    split
    · apply to_size_t_of_nonneg_lt _ h0
      unfold Fits at hfit
      unfold capacity at h2
      have : (s.incomplete_len : Int) < (SIZE_MOD : Int) := by exact_mod_cast (by omega)
      omega
    · rfl
  refine ⟨s', hs', ?_, hsz', hr, hw', hc', hb1, hb2⟩
  refine ⟨by rw [hr]; exact h0, by rw [hr, hw']; omega, ?_⟩
  rw [hw', hc']
  unfold free_capacity
  split <;> push_cast <;> omega

/-- What `initialize_reass` returns when both `malloc` calls succeed. -/
theorem initialize_reass_eq (m_state m_buf : alloc_answer) :
    initialize_reass (some m_state) (some m_buf) =
      .ok { incomplete := { addr := m_buf.addr, bytes := fresh_bytes m_buf INITIALBUFFER }
            writepos := m_buf.addr
            readpos := m_buf.addr
            incomplete_len := INITIALBUFFER } := by
  simp [initialize_reass, malloc]

/-- The state `initialize_reass` returns when both `malloc` calls succeed. -/
theorem initialize_reass_ok (m_state m_buf : alloc_answer) :
    ∃ s0 : reassembly_state_t, initialize_reass (some m_state) (some m_buf) = .ok s0 ∧
      Inv s0 ∧ Sized s0 ∧ read_index s0 = 0 ∧ write_index s0 = 0 ∧
      capacity s0 = INITIALBUFFER := by
  refine ⟨_, initialize_reass_eq m_state m_buf, ?_, ?_, ?_, ?_, ?_⟩
  · simp [Inv, read_index, write_index, capacity]
  · simp [Sized, fresh_bytes_length]
  · simp [read_index]
  · simp [write_index]
  · rfl

/-- The unread region after bytes were appended at the write cursor. -/
theorem unread_append (b b' data : List uint8_t) (r w : Nat) (hrw : r ≤ w) (hw : w ≤ b.length)
    (h1 : b'.take w = b.take w) (h2 : (b'.drop w).take data.length = data) :
    (b'.drop r).take (w + data.length - r) = (b.drop r).take (w - r) ++ data := by
  rw [← List.drop_take, List.take_add, h1, h2, ← List.drop_take,
    List.drop_append_of_le_length (by simp; omega)]

/-- A push that finds room does not consult the allocator. -/
theorem push_data_no_alloc (data : List uint8_t) (s : reassembly_state_t)
    (ans : Option alloc_answer)
    (hw0 : 0 ≤ write_index s) (hwc : write_index s ≤ capacity s)
    (hsz : Sized s) (hfit : Fits s data.length)
    (hg : (data.length : Int) ≤ free_capacity s) :
    push_data data data.length s ans = push_data data data.length s none := by
  simp only [write_index, capacity] at hw0 hwc
  simp only [free_capacity, write_index, capacity] at hg
  have hn : ¬ (s.incomplete_len - (s.writepos - s.incomplete.addr) < data.length) := by omega
  rw [push_data_eq data s ans (s.writepos - s.incomplete.addr) (by omega) (by omega) hsz hfit,
    push_data_eq data s none (s.writepos - s.incomplete.addr) (by omega) (by omega) hsz hfit]
  simp only [hn, if_false]

/-- The capacity after a push that returns, on any state. -/
theorem push_data_capacity (data : List uint8_t) (len : Nat) (s s' : reassembly_state_t)
    (ans : Option alloc_answer) (h : push_data data len s ans = .ok s') :
    s'.incomplete_len = s.incomplete_len ∨
      s'.incomplete_len = to_size_t ((s.incomplete_len : Int) + len) := by
  unfold push_data at h
  simp only at h
  split at h
  · rename_i st hst
    split at h
    · exact absurd h (by simp)
    · rename_i buf hbuf
      have hs' : s'.incomplete_len = st.incomplete_len := by
        have := Outcome.ok.inj h
        rw [← this]
      rw [hs']
      split at hst
      · split at hst
        · exact absurd hst (by simp)
        · have := Outcome.ok.inj hst
          rw [← this]
          right; rfl
      · have := Outcome.ok.inj hst
        rw [← this]
        left; rfl
  · exact absurd h (by simp)
  · exact absurd h (by simp)

/-- A sequence of pushes whose `realloc` calls all succeed returns. -/
theorem push_all_ok (calls : List (List uint8_t × Option alloc_answer)) :
    ∀ s : reassembly_state_t, capacity s + total_len calls < SIZE_MOD →
      0 ≤ write_index s → write_index s ≤ capacity s → Sized s →
      (∀ c ∈ calls, c.2 ≠ none) → ∃ s' : reassembly_state_t, push_all calls s = .ok s' := by
  induction calls with
  | nil => intro s _ _ _ _ _; exact ⟨s, rfl⟩
  | cons c rest ih =>
    intro s hfit hw0 hwc hsz hall
    obtain ⟨data, ans⟩ := c
    simp only [total_len, List.map_cons, List.sum_cons] at hfit
    have hfit1 : Fits s data.length := by unfold Fits; unfold capacity at hfit; omega
    obtain ⟨s1, hs1, hsz1, -, hw1, hc1, -⟩ :=
      push_data_ok data s ans hw0 hwc hsz hfit1 (fun _ => hall (data, ans) (by simp))
    have hc1' : capacity s1 ≤ capacity s + data.length := by rw [hc1]; split <;> omega
    have hwc1 : write_index s1 ≤ capacity s1 := by
      rw [hw1, hc1]
      unfold free_capacity
      split <;> push_cast <;> omega
    obtain ⟨s', hs'⟩ := ih s1 (by unfold total_len; omega) (by omega) hwc1 hsz1
      (fun c hc => hall c (by simp [hc]))
    exact ⟨s', by simp only [push_all, hs1]; exact hs'⟩

/-- Under the invariant a successful push appends the chunk to the unread region. -/
theorem push_data_unread (data : List uint8_t) (s : reassembly_state_t)
    (ans : Option alloc_answer)
    (hinv : Inv s) (hsz : Sized s) (hfit : Fits s data.length)
    (hans : free_capacity s < data.length → ans ≠ none) :
    ∃ s' : reassembly_state_t, push_data data data.length s ans = .ok s' ∧
      Inv s' ∧ Sized s' ∧
      read_index s' = read_index s ∧
      write_index s' = write_index s + data.length ∧
      capacity s' ≤ capacity s + data.length ∧
      unread s' = unread s ++ data := by
  obtain ⟨s', hs', hinv', hsz', hr', hw', hc', hb1, hb2⟩ :=
    push_data_ok_inv data s ans hinv hsz hfit hans
  obtain ⟨h0, h1, h2⟩ := hinv
  refine ⟨s', hs', hinv', hsz', hr', hw', by rw [hc']; split <;> omega, ?_⟩
  unfold unread
  rw [hr', hw']
  have hwn : (write_index s + (data.length : Int)).toNat
      = (write_index s).toNat + data.length := by omega
  rw [hwn]
  refine unread_append (buffer s) (buffer s') data _ _ (by omega) ?_ hb1 hb2
  unfold Sized at hsz
  unfold buffer
  unfold capacity at h2
  omega

/-! ## The claims -/

/-- C1 (scenario C): from the state `initialize_reass` returns, two pushes of the same chunk
`d` (the allocator not failing) leave `2 * len(d)` unread bytes, the first `len(d)` bytes of
the buffer equal to `d` after the first and still after the second push, and the next
`len(d)` bytes equal to `d`; the second push may or may not have grown or moved the buffer. -/
theorem scenario_c_two_pushes (d : List uint8_t) (m_state m_buf a1 a2 : alloc_answer)
    (hfit : INITIALBUFFER + 2 * d.length < SIZE_MOD) :
    ∃ s0 s1 s2 : reassembly_state_t,
      initialize_reass (some m_state) (some m_buf) = .ok s0 ∧
      push_data d d.length s0 (some a1) = .ok s1 ∧
      push_data d d.length s1 (some a2) = .ok s2 ∧
      write_index s2 - read_index s2 = 2 * d.length ∧
      (buffer s1).take d.length = d ∧
      (buffer s2).take d.length = d ∧
      ((buffer s2).drop d.length).take d.length = d := by
  obtain ⟨s0, hs0, hinv0, hsz0, hr0, hw0, hc0⟩ := initialize_reass_ok m_state m_buf
  obtain ⟨s1, hs1, hinv1, hsz1, hr1, hw1, hc1, -, hb1⟩ :=
    push_data_ok_inv d s0 (some a1) hinv0 hsz0
      (by unfold Fits; unfold capacity at hc0; omega) (by simp)
  have hw1' : write_index s1 = d.length := by rw [hw1, hw0]; simp
  have hr1' : read_index s1 = 0 := by rw [hr1, hr0]
  have hc1' : capacity s1 ≤ INITIALBUFFER + d.length := by
    rw [hc1, hc0]; split <;> simp
  simp only [hw0, Int.toNat_zero, List.drop_zero] at hb1
  obtain ⟨s2, hs2, -, -, hr2, hw2, -, hb2, hb3⟩ :=
    push_data_ok_inv d s1 (some a2) hinv1 hsz1
      (by unfold Fits; unfold capacity at hc1'; omega) (by simp)
  rw [hw1'] at hb2 hb3
  simp only [Int.toNat_ofNat] at hb2 hb3
  refine ⟨s0, s1, s2, hs0, hs1, hs2, ?_, hb1, ?_, hb3⟩
  · rw [hw2, hr2, hw1', hr1']; omega
  · rw [hb2]; exact hb1

/-- Witness of C1: the chunk of `main`. -/
theorem scenario_c_two_pushes_witness :
    INITIALBUFFER + 2 * main_data.length < SIZE_MOD ∧
    ∃ s0 s1 s2 : reassembly_state_t,
      initialize_reass (some ⟨4096, []⟩) (some ⟨8192, []⟩) = .ok s0 ∧
      push_data main_data main_data.length s0 (some ⟨16384, []⟩) = .ok s1 ∧
      push_data main_data main_data.length s1 (some ⟨32768, []⟩) = .ok s2 ∧
      write_index s2 - read_index s2 = 2 * main_data.length ∧
      (buffer s1).take main_data.length = main_data ∧
      (buffer s2).take main_data.length = main_data ∧
      ((buffer s2).drop main_data.length).take main_data.length = main_data :=
  ⟨by decide, scenario_c_two_pushes main_data ⟨4096, []⟩ ⟨8192, []⟩ ⟨16384, []⟩ ⟨32768, []⟩
    (by decide)⟩

/-- C2: on a state satisfying the invariant, `push_data` (its `realloc`, if it needs one, not
failing) leaves every byte at an offset below the old `write_index` unchanged, makes the
bytes at offsets `[write_index, write_index + len(data))` equal to `data`, and so the unread
region afterwards is the old unread region followed by `data`. -/
theorem push_data_appends (s : reassembly_state_t) (data : List uint8_t)
    (ans : Option alloc_answer)
    (hinv : Inv s) (hsz : Sized s) (hfit : Fits s data.length)
    (hans : free_capacity s < data.length → ans ≠ none) :
    ∃ s' : reassembly_state_t, push_data data data.length s ans = .ok s' ∧
      (∀ i : Nat, i < (write_index s).toNat → (buffer s')[i]? = (buffer s)[i]?) ∧
      (∀ j : Nat, j < data.length → (buffer s')[(write_index s).toNat + j]? = data[j]?) ∧
      unread s' = unread s ++ data := by
  obtain ⟨s', hs', -, -, -, -, -, hb1, hb2⟩ := push_data_ok_inv data s ans hinv hsz hfit hans
  obtain ⟨t, ht, -, -, -, -, -, hu⟩ := push_data_unread data s ans hinv hsz hfit hans
  have hts : t = s' := Outcome.ok.inj (ht.symm.trans hs')
  subst hts
  refine ⟨t, hs', ?_, ?_, hu⟩
  · intro i hi
    rw [← List.getElem?_take_of_lt hi, hb1, List.getElem?_take_of_lt hi]
  · intro j hj
    rw [← List.getElem?_drop, ← List.getElem?_take_of_lt hj, hb2]

/-- Witness of C2: a push into a full three-byte buffer, which `realloc` moves. -/
theorem push_data_appends_witness :
    ∃ s' : reassembly_state_t,
      push_data [9, 8] 2 ⟨13, 11, ⟨10, [5, 6, 7]⟩, 3⟩ (some ⟨50, [1, 1]⟩) = .ok s' ∧
      (∀ i : Nat, i < 3 → (buffer s')[i]? = ([5, 6, 7] : List uint8_t)[i]?) ∧
      (∀ j : Nat, j < 2 → (buffer s')[3 + j]? = ([9, 8] : List uint8_t)[j]?) ∧
      unread s' = [6, 7] ++ [9, 8] :=
  push_data_appends ⟨13, 11, ⟨10, [5, 6, 7]⟩, 3⟩ [9, 8] (some ⟨50, [1, 1]⟩)
    (by decide) (by decide) (by decide) (by simp)

/-- C3: the state `initialize_reass` returns satisfies `0 ≤ read_index ≤ write_index ≤
capacity` (it returns one unless a `malloc` fails), and `push_data` preserves it: from a
state satisfying it, a push of any chunk either aborts on a failed `realloc` it needed, or
returns a state satisfying it again. -/
theorem invariant_established_and_preserved (m_state m_buf : Option alloc_answer)
    (s : reassembly_state_t) (data : List uint8_t) (ans : Option alloc_answer)
    (hinv : Inv s) (hsz : Sized s) (hfit : Fits s data.length) :
    ((initialize_reass m_state m_buf = .abort ∧ (m_state = none ∨ m_buf = none)) ∨
      ∃ s0 : reassembly_state_t, initialize_reass m_state m_buf = .ok s0 ∧ Inv s0 ∧ Sized s0) ∧
    ((push_data data data.length s ans = .abort ∧ ans = none ∧ free_capacity s < data.length) ∨
      ∃ s' : reassembly_state_t, push_data data data.length s ans = .ok s' ∧ Inv s' ∧ Sized s')
    := by
  constructor
  · cases m_state with
    | none => left; exact ⟨rfl, Or.inl rfl⟩
    | some ms =>
      cases m_buf with
      | none => left; exact ⟨rfl, Or.inr rfl⟩
      | some mb =>
        right
        obtain ⟨s0, hs0, hinv0, hsz0, -⟩ := initialize_reass_ok ms mb
        exact ⟨s0, hs0, hinv0, hsz0⟩
  · by_cases hans : free_capacity s < data.length → ans ≠ none
    · right
      obtain ⟨s', hs', hinv', hsz', -⟩ := push_data_ok_inv data s ans hinv hsz hfit hans
      exact ⟨s', hs', hinv', hsz'⟩
    · left
      push_neg at hans
      obtain ⟨hg, hn⟩ := hans
      subst hn
      exact ⟨push_data_abort data s (le_trans hinv.1 hinv.2.1) hinv.2.2 hsz hfit hg, rfl, hg⟩

/-- Witness of C3: a push that has to grow a three-byte buffer. -/
theorem invariant_established_and_preserved_witness :
    ((initialize_reass (some ⟨4096, []⟩) (some ⟨8192, []⟩) = .abort ∧
        ((some ⟨4096, []⟩ : Option alloc_answer) = none ∨
          (some ⟨8192, []⟩ : Option alloc_answer) = none)) ∨
      ∃ s0 : reassembly_state_t,
        initialize_reass (some ⟨4096, []⟩) (some ⟨8192, []⟩) = .ok s0 ∧ Inv s0 ∧ Sized s0) ∧
    ((push_data [9, 8] 2 ⟨13, 11, ⟨10, [5, 6, 7]⟩, 3⟩ (some ⟨50, [1, 1]⟩) = .abort ∧
        (some ⟨50, [1, 1]⟩ : Option alloc_answer) = none ∧
        free_capacity ⟨13, 11, ⟨10, [5, 6, 7]⟩, 3⟩ < 2) ∨
      ∃ s' : reassembly_state_t,
        push_data [9, 8] 2 ⟨13, 11, ⟨10, [5, 6, 7]⟩, 3⟩ (some ⟨50, [1, 1]⟩) = .ok s' ∧
          Inv s' ∧ Sized s') :=
  invariant_established_and_preserved (some ⟨4096, []⟩) (some ⟨8192, []⟩)
    ⟨13, 11, ⟨10, [5, 6, 7]⟩, 3⟩ [9, 8] (some ⟨50, [1, 1]⟩) (by decide) (by decide) (by decide)

/-- C4 (growth policy): on a state whose write cursor lies in the buffer, `push_data` (its
`realloc`, if it needs one, not failing) returns a state whose capacity is the old capacity
plus `len(data)` when the free capacity was smaller than `len(data)`, and the old capacity
otherwise. -/
theorem growth_policy (s : reassembly_state_t) (data : List uint8_t) (ans : Option alloc_answer)
    (hw0 : 0 ≤ write_index s) (hwc : write_index s ≤ capacity s)
    (hsz : Sized s) (hfit : Fits s data.length)
    (hans : free_capacity s < data.length → ans ≠ none) :
    ∃ s' : reassembly_state_t, push_data data data.length s ans = .ok s' ∧
      (free_capacity s < data.length → capacity s' = capacity s + data.length) ∧
      ((data.length : Int) ≤ free_capacity s → capacity s' = capacity s) := by
  obtain ⟨s', hs', -, -, -, hc', -⟩ := push_data_ok data s ans hw0 hwc hsz hfit hans
  refine ⟨s', hs', ?_, ?_⟩
  · intro hg
    rw [hc', if_pos hg]
  · intro hg
    rw [hc', if_neg (by omega)]

/-- Witness of C4: two bytes pushed into a four-byte buffer with one free byte. -/
theorem growth_policy_witness :
    ∃ s' : reassembly_state_t,
      push_data [9, 8] 2 ⟨13, 11, ⟨10, [5, 6, 7, 0]⟩, 4⟩ (some ⟨50, [1, 1]⟩) = .ok s' ∧
      (free_capacity ⟨13, 11, ⟨10, [5, 6, 7, 0]⟩, 4⟩ < (2 : Nat) → capacity s' = 4 + 2) ∧
      (((2 : Nat) : Int) ≤ free_capacity ⟨13, 11, ⟨10, [5, 6, 7, 0]⟩, 4⟩ → capacity s' = 4) :=
  growth_policy ⟨13, 11, ⟨10, [5, 6, 7, 0]⟩, 4⟩ [9, 8] (some ⟨50, [1, 1]⟩)
    (by decide) (by decide) (by decide) (by decide) (by simp)

/-- C5: a push of zero bytes returns the state it was given, whatever that state is and
whatever the allocator would answer: buffer, `read_index`, `write_index` and capacity are
unchanged and the buffer is not grown. -/
theorem push_data_zero_length (s : reassembly_state_t) (data : List uint8_t)
    (ans : Option alloc_answer) :
    push_data data 0 s ans = .ok s := by
  simp [push_data, memcpy]

/-- C6: on a state whose two cursors lie in the buffer, `push_data` (its `realloc`, if it
needs one, not failing) moves `write_index` forward by exactly `len(data)` and leaves
`read_index` as it was, whether it grew and moved the buffer or not. -/
theorem push_data_cursors (s : reassembly_state_t) (data : List uint8_t)
    (ans : Option alloc_answer)
    (hr0 : 0 ≤ read_index s) (hrc : read_index s ≤ capacity s)
    (hw0 : 0 ≤ write_index s) (hwc : write_index s ≤ capacity s)
    (hsz : Sized s) (hfit : Fits s data.length)
    (hans : free_capacity s < data.length → ans ≠ none) :
    ∃ s' : reassembly_state_t, push_data data data.length s ans = .ok s' ∧
      write_index s' = write_index s + data.length ∧
      read_index s' = read_index s := by
  obtain ⟨s', hs', -, hr', hw', -⟩ := push_data_ok data s ans hw0 hwc hsz hfit hans
  refine ⟨s', hs', hw', ?_⟩
  rw [hr']
  split
  · apply to_size_t_of_nonneg_lt _ hr0
    unfold Fits at hfit
    unfold capacity at hrc
    have : (s.incomplete_len : Int) < (SIZE_MOD : Int) := by exact_mod_cast (by omega)
    omega
  · rfl

/-- Witness of C6: a push that grows and moves the buffer, the read cursor being ahead of
the write cursor. -/
theorem push_data_cursors_witness :
    ∃ s' : reassembly_state_t,
      push_data [9, 8] 2 ⟨12, 13, ⟨10, [5, 6, 7]⟩, 3⟩ (some ⟨50, [1, 1]⟩) = .ok s' ∧
      write_index s' = 2 + (2 : Nat) ∧ read_index s' = 3 :=
  push_data_cursors ⟨12, 13, ⟨10, [5, 6, 7]⟩, 3⟩ [9, 8] (some ⟨50, [1, 1]⟩)
    (by decide) (by decide) (by decide) (by decide) (by decide) (by decide) (by simp)

/-- C7: on a state satisfying the invariant `push_data` never runs into undefined
behaviour, and it fails (the `assert` after `realloc` aborts) exactly when the free capacity
is smaller than `len(data)` and `realloc` fails; when the free capacity is at least
`len(data)` the allocator is not consulted and the push returns a state. -/
theorem push_data_fails_iff (s : reassembly_state_t) (data : List uint8_t)
    (ans : Option alloc_answer)
    (hinv : Inv s) (hsz : Sized s) (hfit : Fits s data.length) :
    (push_data data data.length s ans = .abort ↔
      (free_capacity s < data.length ∧ ans = none)) ∧
    push_data data data.length s ans ≠ .undefined ∧
    ((data.length : Int) ≤ free_capacity s →
      ∃ s' : reassembly_state_t, ∀ ans' : Option alloc_answer,
        push_data data data.length s ans' = .ok s') := by
  have hw0 : 0 ≤ write_index s := le_trans hinv.1 hinv.2.1
  have hwc : write_index s ≤ capacity s := hinv.2.2
  refine ⟨?_, ?_, ?_⟩
  · constructor
    · intro hab
      by_contra hcon
      have hans : free_capacity s < data.length → ans ≠ none := fun hg hn => hcon ⟨hg, hn⟩
      obtain ⟨s', hs', -⟩ := push_data_ok data s ans hw0 hwc hsz hfit hans
      rw [hs'] at hab
      exact absurd hab (by simp)
    · rintro ⟨hg, rfl⟩
      exact push_data_abort data s hw0 hwc hsz hfit hg
  · by_cases hans : free_capacity s < data.length → ans ≠ none
    · obtain ⟨s', hs', -⟩ := push_data_ok data s ans hw0 hwc hsz hfit hans
      rw [hs']; simp
    · push_neg at hans
      obtain ⟨hg, rfl⟩ := hans
      rw [push_data_abort data s hw0 hwc hsz hfit hg]; simp
  · intro hg
    obtain ⟨s', hs', -⟩ := push_data_ok data s none hw0 hwc hsz hfit (fun h => by omega)
    exact ⟨s', fun ans' => by rw [push_data_no_alloc data s ans' hw0 hwc hsz hfit hg, hs']⟩

/-- Witness of C7: a full three-byte buffer and a failing `realloc`. -/
theorem push_data_fails_iff_witness :
    (push_data [9, 8] 2 ⟨13, 11, ⟨10, [5, 6, 7]⟩, 3⟩ none = .abort ↔
      (free_capacity ⟨13, 11, ⟨10, [5, 6, 7]⟩, 3⟩ < (2 : Nat) ∧
        (none : Option alloc_answer) = none)) ∧
    push_data [9, 8] 2 ⟨13, 11, ⟨10, [5, 6, 7]⟩, 3⟩ none ≠ .undefined ∧
    (((2 : Nat) : Int) ≤ free_capacity ⟨13, 11, ⟨10, [5, 6, 7]⟩, 3⟩ →
      ∃ s' : reassembly_state_t, ∀ ans' : Option alloc_answer,
        push_data [9, 8] 2 ⟨13, 11, ⟨10, [5, 6, 7]⟩, 3⟩ ans' = .ok s') :=
  push_data_fails_iff ⟨13, 11, ⟨10, [5, 6, 7]⟩, 3⟩ [9, 8] none
    (by decide) (by decide) (by decide)

/-- C8: the buffer never shrinks.  A single `push_data` that returns, returns a capacity at
least the old one; so does a finite sequence of `push_data` calls; and such a sequence does
return when the cursor of the first state lies in its buffer and no `realloc` fails. -/
theorem capacity_never_shrinks (s : reassembly_state_t)
    (calls : List (List uint8_t × Option alloc_answer))
    (hfit : capacity s + total_len calls < SIZE_MOD) :
    (∀ (data : List uint8_t) (ans : Option alloc_answer) (s' : reassembly_state_t),
      Fits s data.length → push_data data data.length s ans = .ok s' →
        capacity s ≤ capacity s') ∧
    (∀ s' : reassembly_state_t, push_all calls s = .ok s' → capacity s ≤ capacity s') ∧
    (0 ≤ write_index s → write_index s ≤ capacity s → Sized s → (∀ c ∈ calls, c.2 ≠ none) →
      ∃ s' : reassembly_state_t, push_all calls s = .ok s') := by
  have step : ∀ (t t' : reassembly_state_t) (data : List uint8_t) (ans : Option alloc_answer),
      Fits t data.length → push_data data data.length t ans = .ok t' →
        capacity t ≤ capacity t' ∧ capacity t' ≤ capacity t + data.length := by
    intro t t' data ans hf h
    unfold Fits at hf
    unfold capacity
    rcases push_data_capacity data data.length t t' ans h with h1 | h1
    · omega
    · have e : to_size_t ((t.incomplete_len : Int) + (data.length : Nat))
          = t.incomplete_len + data.length := by
        have : (t.incomplete_len : Int) + (data.length : Nat)
            = ((t.incomplete_len + data.length : Nat) : Int) := by push_cast; rfl
        rw [this]; exact to_size_t_of_lt _ hf
      rw [e] at h1
      omega
  refine ⟨fun data ans s' hf h => (step s s' data ans hf h).1, ?_, push_all_ok calls s hfit⟩
  induction calls generalizing s with
  | nil =>
    intro s' h
    have := Outcome.ok.inj h
    rw [this]
  | cons c rest ih =>
    intro s' h
    obtain ⟨data, ans⟩ := c
    simp only [total_len, List.map_cons, List.sum_cons] at hfit
    simp only [push_all] at h
    split at h
    · rename_i s1 hs1
      have hf : Fits s data.length := by unfold Fits; unfold capacity at hfit; omega
      have hstep := step s s1 data ans hf hs1
      have := ih s1 (by unfold total_len; omega) s' h
      omega
    · exact absurd h (by simp)
    · exact absurd h (by simp)

/-- Witness of C8: two pushes into a three-byte buffer, the second of which grows it. -/
theorem capacity_never_shrinks_witness :
    (∀ (data : List uint8_t) (ans : Option alloc_answer) (s' : reassembly_state_t),
      Fits ⟨11, 10, ⟨10, [5, 6, 7]⟩, 3⟩ data.length →
        push_data data data.length ⟨11, 10, ⟨10, [5, 6, 7]⟩, 3⟩ ans = .ok s' →
        capacity ⟨11, 10, ⟨10, [5, 6, 7]⟩, 3⟩ ≤ capacity s') ∧
    (∀ s' : reassembly_state_t,
      push_all [([9], some ⟨40, []⟩), ([8, 8], some ⟨50, []⟩)] ⟨11, 10, ⟨10, [5, 6, 7]⟩, 3⟩ = .ok s' →
        capacity ⟨11, 10, ⟨10, [5, 6, 7]⟩, 3⟩ ≤ capacity s') ∧
    (0 ≤ write_index ⟨11, 10, ⟨10, [5, 6, 7]⟩, 3⟩ →
      write_index ⟨11, 10, ⟨10, [5, 6, 7]⟩, 3⟩ ≤ capacity ⟨11, 10, ⟨10, [5, 6, 7]⟩, 3⟩ →
      Sized ⟨11, 10, ⟨10, [5, 6, 7]⟩, 3⟩ →
      (∀ c ∈ [(([9] : List uint8_t), (some ⟨40, []⟩ : Option alloc_answer)),
          ([8, 8], some ⟨50, []⟩)],
        c.2 ≠ none) →
      ∃ s' : reassembly_state_t,
        push_all [([9], some ⟨40, []⟩), ([8, 8], some ⟨50, []⟩)] ⟨11, 10, ⟨10, [5, 6, 7]⟩, 3⟩
          = .ok s') :=
  capacity_never_shrinks ⟨11, 10, ⟨10, [5, 6, 7]⟩, 3⟩
    [([9], some ⟨40, []⟩), ([8, 8], some ⟨50, []⟩)]
    (by decide)

/-! ### The reorder buffer -/

namespace ReorderBuffer

theorem drain_sequences (l : List unpacked_cell_t) :
    ∀ last : Nat, (drain l last).2.map (fun c => c.sequence)
      = List.range' (last + 1) (drain l last).2.length := by
  induction l with
  | nil => intro last; simp [drain]
  | cons c rest ih =>
    intro last
    by_cases h : c.sequence = last + 1
    · simp only [drain, h, if_true, List.map_cons, List.length_cons, List.range'_succ]
      rw [← h, ih c.sequence]
    · simp [drain, h]

theorem drain_last (l : List unpacked_cell_t) :
    ∀ last : Nat, (drain l last).1.last = last + (drain l last).2.length := by
  induction l with
  | nil => intro last; simp [drain]
  | cons c rest ih =>
    intro last
    by_cases h : c.sequence = last + 1
    · simp only [drain, h, if_true, List.length_cons]
      rw [← h, ih c.sequence]
      omega
    · simp [drain, h]

theorem drain_append (l : List unpacked_cell_t) :
    ∀ last : Nat, (drain l last).2 ++ (drain l last).1.head = l := by
  induction l with
  | nil => intro last; simp [drain]
  | cons c rest ih =>
    intro last
    by_cases h : c.sequence = last + 1
    · simp only [drain, h, if_true, List.cons_append]
      rw [← h, ih c.sequence]
    · simp [drain, h]

theorem drain_gap (l : List unpacked_cell_t) :
    ∀ last : Nat, l.Pairwise (fun a b => a.sequence < b.sequence) →
      (∀ x ∈ l, last < x.sequence) →
      (drain l last).1.head.Pairwise (fun a b => a.sequence < b.sequence) ∧
      ∀ x ∈ (drain l last).1.head, (drain l last).1.last + 1 < x.sequence := by
  induction l with
  | nil => intro last _ _; simp [drain]
  | cons c rest ih =>
    intro last hp hl
    rw [List.pairwise_cons] at hp
    by_cases h : c.sequence = last + 1
    · simp only [drain, h, if_true]
      rw [← h]
      exact ih c.sequence hp.2 hp.1
    · simp only [drain, h, if_false]
      refine ⟨List.pairwise_cons.mpr hp, ?_⟩
      intro x hx
      have hc : last < c.sequence := hl c (by simp)
      rcases List.mem_cons.mp hx with rfl | hx
      · omega
      · have := hp.1 x hx
        omega

theorem mem_insert_pending (cell x : unpacked_cell_t) (l : List unpacked_cell_t)
    (h : x ∈ insert_pending cell l) : x = cell ∨ x ∈ l := by
  induction l with
  | nil => simp [insert_pending] at h; exact Or.inl h
  | cons y ys ih =>
    simp only [insert_pending] at h
    split at h
    · rcases List.mem_cons.mp h with h | h
      · exact Or.inl h
      · exact Or.inr h
    · split at h
      · exact Or.inr h
      · rcases List.mem_cons.mp h with h | h
        · exact Or.inr (by simp [h])
        · rcases ih h with h | h
          · exact Or.inl h
          · exact Or.inr (by simp [h])

theorem pairwise_insert_pending (cell : unpacked_cell_t) (l : List unpacked_cell_t)
    (hp : l.Pairwise (fun a b => a.sequence < b.sequence)) :
    (insert_pending cell l).Pairwise (fun a b => a.sequence < b.sequence) := by
  induction l with
  | nil => simp [insert_pending]
  | cons y ys ih =>
    rw [List.pairwise_cons] at hp
    simp only [insert_pending]
    split
    · rename_i hlt
      refine List.pairwise_cons.mpr ⟨?_, List.pairwise_cons.mpr hp⟩
      intro x hx
      rcases List.mem_cons.mp hx with rfl | hx
      · exact hlt
      · exact lt_trans hlt (hp.1 x hx)
    · split
      · exact List.pairwise_cons.mpr hp
      · rename_i hnlt hne
        refine List.pairwise_cons.mpr ⟨?_, ih hp.2⟩
        intro x hx
        rcases mem_insert_pending cell x ys hx with rfl | hx
        · omega
        · exact hp.1 x hx

end ReorderBuffer

/-- C9: `ReorderBuffer.insert` emits in strictly ascending order of `sequence` and without
gaps.  On a state whose pending cells are in ascending order after `last_emitted`, the cells
it emits have the sequences `last_emitted + 1, last_emitted + 2, …`, they are the front of
the pending collection (the new cell put in its place), `last_emitted` ends as the sequence
of the last of them, every cell still pending lies behind a gap, and the state is in order
again.  In particular, from an empty buffer with `last_emitted = n` (scenario B has `n = 0`),
inserting `n + 2` emits nothing and keeps `last_emitted`, and inserting `n + 1` then emits
the payload of `n + 1` and right after it that of `n + 2`, and `last_emitted` is `n + 2`. -/
theorem insert_emits_in_sequence (rb : reordering_state_t) (cell : unpacked_cell_t)
    (hwf : ReorderBuffer.WellFormed rb) :
    (ReorderBuffer.insert rb cell).2.map (fun c => c.sequence)
      = List.range' (rb.last + 1) (ReorderBuffer.insert rb cell).2.length ∧
    (ReorderBuffer.insert rb cell).1.last = rb.last + (ReorderBuffer.insert rb cell).2.length ∧
    (ReorderBuffer.insert rb cell).2 ++ (ReorderBuffer.insert rb cell).1.head
      = (if cell.sequence ≤ rb.last then rb.head
          else ReorderBuffer.insert_pending cell rb.head) ∧
    (∀ x ∈ (ReorderBuffer.insert rb cell).1.head,
      (ReorderBuffer.insert rb cell).1.last + 1 < x.sequence) ∧
    ReorderBuffer.WellFormed (ReorderBuffer.insert rb cell).1 ∧
    (∀ (n : Nat) (p1 p2 : List uint8_t),
      ReorderBuffer.insert ⟨[], n⟩ ⟨n + 2, p2⟩ = (⟨[⟨n + 2, p2⟩], n⟩, []) ∧
      ReorderBuffer.insert ⟨[⟨n + 2, p2⟩], n⟩ ⟨n + 1, p1⟩
        = (⟨[], n + 2⟩, [⟨n + 1, p1⟩, ⟨n + 2, p2⟩]) ∧
      ReorderBuffer.sink_writes
          (ReorderBuffer.insert ⟨[⟨n + 2, p2⟩], n⟩ ⟨n + 1, p1⟩).2 = [p1, p2]) := by
  obtain ⟨hp, hl⟩ := hwf
  have hpend : (if cell.sequence ≤ rb.last then rb.head
        else ReorderBuffer.insert_pending cell rb.head).Pairwise
          (fun a b => a.sequence < b.sequence) ∧
      ∀ x ∈ (if cell.sequence ≤ rb.last then rb.head
        else ReorderBuffer.insert_pending cell rb.head), rb.last < x.sequence := by
    split
    · exact ⟨hp, hl⟩
    · refine ⟨ReorderBuffer.pairwise_insert_pending cell rb.head hp, ?_⟩
      intro x hx
      rcases ReorderBuffer.mem_insert_pending cell x rb.head hx with rfl | hx
      · omega
      · exact hl x hx
  have hgap := ReorderBuffer.drain_gap _ rb.last hpend.1 hpend.2
  refine ⟨ReorderBuffer.drain_sequences _ _, ReorderBuffer.drain_last _ _,
    ReorderBuffer.drain_append _ _, hgap.2, ⟨hgap.1, ?_⟩, ?_⟩
  · intro x hx
    have := hgap.2 x hx
    unfold ReorderBuffer.insert
    omega
  · intro n p1 p2
    simp [ReorderBuffer.insert, ReorderBuffer.insert_pending, ReorderBuffer.drain,
      ReorderBuffer.sink_writes]

/-- Witness of C9: the cell `2` arrives while `3` and `5` are pending after `1`. -/
theorem insert_emits_in_sequence_witness :
    ReorderBuffer.insert ⟨[⟨3, [66]⟩, ⟨5, []⟩], 1⟩ ⟨2, [65, 65]⟩
      = (⟨[⟨5, []⟩], 3⟩, [⟨2, [65, 65]⟩, ⟨3, [66]⟩]) ∧
    (ReorderBuffer.insert ⟨[⟨3, [66]⟩, ⟨5, []⟩], 1⟩ ⟨2, [65, 65]⟩).2.map (fun c => c.sequence)
      = List.range' (1 + 1) 2 :=
  ⟨by decide,
    (insert_emits_in_sequence ⟨[⟨3, [66]⟩, ⟨5, []⟩], 1⟩ ⟨2, [65, 65]⟩ (by decide)).1⟩

/-! ### Framing -/

theorem try_extract_cell_short (fmt : header_format) (s : reassembly_state_t)
    (h : (unread s).length < fmt.header_len) :
    try_extract_cell fmt s = (.not_yet_available, s) := by
  simp [try_extract_cell, h]

theorem try_extract_cell_partial (fmt : header_format) (s : reassembly_state_t)
    (sequence length : Nat)
    (hp : fmt.parse_header ((unread s).take fmt.header_len) = some (sequence, length))
    (h : (unread s).length < fmt.header_len + length) :
    try_extract_cell fmt s = (.not_yet_available, s) := by
  unfold try_extract_cell
  split
  · rfl
  · simp [hp, h]

theorem try_extract_cell_complete (fmt : header_format) (s : reassembly_state_t)
    (sequence length : Nat)
    (hp : fmt.parse_header ((unread s).take fmt.header_len) = some (sequence, length))
    (h : fmt.header_len + length ≤ (unread s).length) :
    try_extract_cell fmt s =
      (.cell { sequence := sequence
               payload := ((unread s).drop fmt.header_len).take length },
       { s with readpos := s.readpos + (fmt.header_len + length) }) := by
  unfold try_extract_cell
  have h1 : ¬ ((unread s).length < fmt.header_len) := by omega
  have h2 : ¬ ((unread s).length < fmt.header_len + length) := by omega
  simp [hp, h1, h2]

theorem unread_nil_of_eq (s : reassembly_state_t) (h : read_index s = write_index s) :
    unread s = [] := by
  unfold unread
  rw [h]
  simp

/-- C10: let `c` be a cell whose header the format encodes in `header_len > 0` bytes and
parses back, and `s` a state satisfying the invariant whose unread region is empty.  After a
push of all but the last byte of the encoded cell, `try_extract_cell` signals "not yet
available" and returns the state as it is; after a push of the last byte, it returns the
cell `c` and moves `read_index` forward by the length of the encoded cell, up to
`write_index`, the buffer being untouched; nothing is left, and a further call signals "not
yet available".  No `realloc` fails here. -/
theorem partial_then_complete_cell (fmt : header_format) (c : unpacked_cell_t)
    (s : reassembly_state_t) (a1 a2 : alloc_answer)
    (hlen : (fmt.encode_header c.sequence c.payload.length).length = fmt.header_len)
    (hparse : fmt.parse_header (fmt.encode_header c.sequence c.payload.length)
      = some (c.sequence, c.payload.length))
    (hpos : 0 < fmt.header_len)
    (hinv : Inv s) (hsz : Sized s) (hempty : read_index s = write_index s)
    (hfit : capacity s + (encode_cell fmt c).length < SIZE_MOD) :
    ∃ s1 s2 s3 : reassembly_state_t,
      push_data (encode_cell fmt c).dropLast (encode_cell fmt c).dropLast.length s (some a1)
        = .ok s1 ∧
      try_extract_cell fmt s1 = (.not_yet_available, s1) ∧
      push_data ((encode_cell fmt c).drop ((encode_cell fmt c).length - 1))
          ((encode_cell fmt c).drop ((encode_cell fmt c).length - 1)).length s1 (some a2)
        = .ok s2 ∧
      try_extract_cell fmt s2 = (.cell c, s3) ∧
      read_index s3 = read_index s2 + (encode_cell fmt c).length ∧
      read_index s3 = write_index s3 ∧
      buffer s3 = buffer s2 ∧
      try_extract_cell fmt s3 = (.not_yet_available, s3) := by
  have henc : encode_cell fmt c = fmt.encode_header c.sequence c.payload.length ++ c.payload :=
    rfl
  have hn : (encode_cell fmt c).length = fmt.header_len + c.payload.length := by
    rw [henc, List.length_append, hlen]
  have hpre : (encode_cell fmt c).dropLast.length = (encode_cell fmt c).length - 1 := by simp
  have hlst : ((encode_cell fmt c).drop ((encode_cell fmt c).length - 1)).length = 1 := by
    rw [List.length_drop]; omega
  have hjoin : (encode_cell fmt c).dropLast
      ++ (encode_cell fmt c).drop ((encode_cell fmt c).length - 1) = encode_cell fmt c := by
    rw [List.dropLast_eq_take, List.take_append_drop]
  have hhdr : (encode_cell fmt c).take fmt.header_len
      = fmt.encode_header c.sequence c.payload.length := by
    rw [henc, List.take_append_of_le_length (by omega), List.take_of_length_le (by omega)]
  unfold capacity at hfit
  -- first push
  obtain ⟨s1, hs1, hinv1, hsz1, hr1, hw1, hc1, hu1⟩ :=
    push_data_unread (encode_cell fmt c).dropLast s (some a1) hinv hsz
      (by unfold Fits; omega) (by simp)
  rw [unread_nil_of_eq s hempty, List.nil_append] at hu1
  have hx1 : try_extract_cell fmt s1 = (.not_yet_available, s1) := by
    by_cases hL : c.payload.length = 0
    · exact try_extract_cell_short fmt s1 (by rw [hu1, hpre]; omega)
    · refine try_extract_cell_partial fmt s1 c.sequence c.payload.length ?_
        (by rw [hu1, hpre]; omega)
      rw [hu1, List.dropLast_eq_take, List.take_take, Nat.min_eq_left (by omega), hhdr]
      exact hparse
  -- second push
  unfold capacity at hc1
  obtain ⟨s2, hs2, hinv2, hsz2, hr2, hw2, hc2, hu2⟩ :=
    push_data_unread ((encode_cell fmt c).drop ((encode_cell fmt c).length - 1)) s1 (some a2)
      hinv1 hsz1 (by unfold Fits; omega) (by simp)
  rw [hu1, hjoin] at hu2
  have hx2 := try_extract_cell_complete fmt s2 c.sequence c.payload.length
    (by rw [hu2, hhdr]; exact hparse) (by rw [hu2]; omega)
  have hpay : ((unread s2).drop fmt.header_len).take c.payload.length = c.payload := by
    rw [hu2, henc, List.drop_append_of_le_length (by omega), List.drop_of_length_le (by omega)]
    simp
  rw [hpay] at hx2
  have hr3 : read_index { s2 with readpos := s2.readpos + (fmt.header_len + c.payload.length) }
      = read_index s2 + (encode_cell fmt c).length := by
    simp only [read_index, hn]; push_cast; omega
  have hw3 : write_index { s2 with readpos := s2.readpos + (fmt.header_len + c.payload.length) }
      = write_index s2 := rfl
  have heq : read_index { s2 with readpos := s2.readpos + (fmt.header_len + c.payload.length) }
      = write_index { s2 with readpos := s2.readpos + (fmt.header_len + c.payload.length) } := by
    rw [hr3, hw3, hr2, hw2, hr1, hw1, hempty, hpre, hlst]
    push_cast
    omega
  refine ⟨s1, s2, _, hs1, hx1, hs2, hx2, hr3, heq, rfl, ?_⟩
  exact try_extract_cell_short fmt _ (by rw [unread_nil_of_eq _ heq]; exact hpos)

/-- Witness of C10: the cell `(1, "AAB")` in the two-byte format, pushed into a full two-byte
buffer whose two bytes are consumed. -/
theorem partial_then_complete_cell_witness :
    ∃ s1 s2 s3 : reassembly_state_t,
      push_data [1, 3, 65, 65] 4 ⟨12, 12, ⟨10, [7, 7]⟩, 2⟩ (some ⟨50, []⟩) = .ok s1 ∧
      try_extract_cell two_byte_format s1 = (.not_yet_available, s1) ∧
      push_data [66] 1 s1 (some ⟨90, []⟩) = .ok s2 ∧
      try_extract_cell two_byte_format s2 = (.cell ⟨1, [65, 65, 66]⟩, s3) ∧
      read_index s3 = read_index s2 + 5 ∧
      read_index s3 = write_index s3 ∧
      buffer s3 = buffer s2 ∧
      try_extract_cell two_byte_format s3 = (.not_yet_available, s3) :=
  partial_then_complete_cell two_byte_format ⟨1, [65, 65, 66]⟩ ⟨12, 12, ⟨10, [7, 7]⟩, 2⟩
    ⟨50, []⟩ ⟨90, []⟩ (by decide) (by decide) (by decide) (by decide) (by decide) (by decide)
    (by decide)

/-! ### Sequences of pushes -/

/-- A push that finds room leaves the buffer where it is. -/
theorem push_data_no_move (data : List uint8_t) (s s' : reassembly_state_t)
    (ans : Option alloc_answer)
    (hw0 : 0 ≤ write_index s) (hwc : write_index s ≤ capacity s)
    (hsz : Sized s) (hfit : Fits s data.length)
    (hg : (data.length : Int) ≤ free_capacity s)
    (h : push_data data data.length s ans = .ok s') :
    s'.incomplete.addr = s.incomplete.addr := by
  simp only [write_index, capacity] at hw0 hwc
  simp only [free_capacity, write_index, capacity] at hg
  have hn : ¬ (s.incomplete_len - (s.writepos - s.incomplete.addr) < data.length) := by omega
  rw [push_data_eq data s ans (s.writepos - s.incomplete.addr) (by omega) (by omega) hsz hfit]
    at h
  simp only [hn, if_false] at h
  have := Outcome.ok.inj h
  rw [← this]

/-- A sequence of pushes from a state satisfying the invariant aborts only when the chunks
do not fit in the free capacity; otherwise it returns a state described by the first one. -/
theorem push_all_run (calls : List (List uint8_t × Option alloc_answer)) :
    ∀ s : reassembly_state_t, Inv s → Sized s → capacity s + total_len calls < SIZE_MOD →
      (push_all calls s = .abort ∧ free_capacity s < total_len calls) ∨
      ∃ s' : reassembly_state_t, push_all calls s = .ok s' ∧ Inv s' ∧ Sized s' ∧
        read_index s' = read_index s ∧
        write_index s' = write_index s + total_len calls ∧
        free_capacity s' ≤ free_capacity s ∧
        (capacity s' = capacity s ↔ (total_len calls : Int) ≤ free_capacity s) ∧
        ((total_len calls : Int) ≤ free_capacity s →
          s'.incomplete.addr = s.incomplete.addr) := by
  induction calls with
  | nil =>
    intro s hinv hsz _
    right
    refine ⟨s, rfl, hinv, hsz, rfl, by simp [total_len], le_refl _, ?_, fun _ => rfl⟩
    have := hinv.2.2
    simp only [total_len, List.map_nil, List.sum_nil, free_capacity]
    constructor
    · intro _; push_cast; omega
    · intro _; trivial
  | cons c rest ih =>
    intro s hinv hsz hfit
    obtain ⟨data, ans⟩ := c
    have htl : total_len ((data, ans) :: rest) = data.length + total_len rest := by
      simp [total_len]
    rw [htl] at hfit ⊢
    have hfit1 : Fits s data.length := by unfold Fits; unfold capacity at hfit; omega
    have hf0 : 0 ≤ free_capacity s := by
      have := hinv.2.2
      unfold free_capacity
      omega
    by_cases hans : free_capacity s < data.length → ans ≠ none
    · obtain ⟨s1, hs1, hinv1, hsz1, hr1, hw1, hc1, -⟩ :=
        push_data_ok_inv data s ans hinv hsz hfit1 hans
      have hmove := push_data_no_move data s s1 ans (le_trans hinv.1 hinv.2.1) hinv.2.2
        hsz hfit1
      have hf1 : free_capacity s1 = (if free_capacity s < data.length
          then free_capacity s else free_capacity s - data.length) := by
        unfold free_capacity at *
        rw [hw1, hc1]
        split <;> push_cast <;> omega
      have hc1' : capacity s1 ≤ capacity s + data.length := by rw [hc1]; split <;> omega
      have hrun : push_all ((data, ans) :: rest) s = push_all rest s1 := by
        simp only [push_all, hs1]
      rw [hrun]
      rcases ih s1 hinv1 hsz1 (by omega) with ⟨hab, hlt⟩ | ⟨s', hs', hinv', hsz', hr', hw', hf', hc', ha'⟩
      · left
        refine ⟨hab, ?_⟩
        rw [hf1] at hlt
        push_cast
        split at hlt <;> omega
      · right
        refine ⟨s', hs', hinv', hsz', by rw [hr', hr1], by rw [hw', hw1]; push_cast; omega,
          ?_, ?_, ?_⟩
        · rw [hf1] at hf'
          split at hf' <;> omega
        · by_cases hg : free_capacity s < data.length
          · rw [if_pos hg] at hc1
            have hmono : capacity s1 ≤ capacity s' := by
              by_contra hcon
              have h1 : ¬ (capacity s' = capacity s1) := by omega
              have h2 : ¬ ((total_len rest : Int) ≤ free_capacity s1) := fun h => h1 (hc'.mpr h)
              have h3 := hinv'.2.2
              have h4 := hinv1.2.2
              unfold free_capacity at h2 hf'
              omega
            constructor
            · intro h; omega
            · intro h; push_cast at h; omega
          · rw [if_neg hg] at hc1
            rw [if_neg hg] at hf1
            rw [← hc1, hc', hf1]
            push_cast
            constructor <;> intro h <;> omega
        · intro h
          push_cast at h
          have hg : (data.length : Int) ≤ free_capacity s := by omega
          have hg' : ¬ (free_capacity s < data.length) := by omega
          rw [if_neg hg'] at hf1
          rw [ha' (by rw [hf1]; omega), hmove hg hs1]
    · left
      push_neg at hans
      obtain ⟨hg, hn⟩ := hans
      subst hn
      have hab := push_data_abort data s (le_trans hinv.1 hinv.2.1) hinv.2.2 hsz hfit1 hg
      refine ⟨by simp only [push_all, hab], ?_⟩
      push_cast
      omega

/-- C11: `INITIALBUFFER` is 1024, and `initialize_reass`, unless a `malloc` fails and it
aborts, returns a state with `read_index = 0`, `write_index = 0` and capacity 1024: the
unread region is empty and the free capacity is 1024 bytes. -/
theorem initialize_reass_state (m_state m_buf : Option alloc_answer) :
    INITIALBUFFER = 1024 ∧
    ((initialize_reass m_state m_buf = .abort ∧ (m_state = none ∨ m_buf = none)) ∨
      ∃ s0 : reassembly_state_t, initialize_reass m_state m_buf = .ok s0 ∧
        read_index s0 = 0 ∧ write_index s0 = 0 ∧ capacity s0 = 1024 ∧
        unread s0 = [] ∧ free_capacity s0 = 1024) := by
  refine ⟨rfl, ?_⟩
  cases m_state with
  | none => left; exact ⟨rfl, Or.inl rfl⟩
  | some ms =>
    cases m_buf with
    | none => left; exact ⟨rfl, Or.inr rfl⟩
    | some mb =>
      right
      obtain ⟨s0, hs0, -, -, hr0, hw0, hc0⟩ := initialize_reass_ok ms mb
      refine ⟨s0, hs0, hr0, hw0, hc0, unread_nil_of_eq s0 (by rw [hr0, hw0]), ?_⟩
      unfold free_capacity
      rw [hc0, hw0]
      rfl

/-- C12 (chunking independence): from a state satisfying the invariant, pushing `a` and then
`b` ends with the same `read_index`, the same `write_index` and the same bytes at the offsets
`[0, write_index)` as pushing `a ++ b` at once, whatever the allocator answers in the two
runs as long as it does not fail; the capacities are not compared. -/
theorem push_data_chunking (s : reassembly_state_t) (a b : List uint8_t)
    (ans1 ans2 ans3 : alloc_answer)
    (hinv : Inv s) (hsz : Sized s) (hfit : Fits s (a ++ b).length) :
    ∃ s1 s2 t : reassembly_state_t,
      push_data a a.length s (some ans1) = .ok s1 ∧
      push_data b b.length s1 (some ans2) = .ok s2 ∧
      push_data (a ++ b) (a ++ b).length s (some ans3) = .ok t ∧
      read_index s2 = read_index t ∧
      write_index s2 = write_index t ∧
      (buffer s2).take (write_index s2).toNat = (buffer t).take (write_index t).toNat := by
  have hlen : (a ++ b).length = a.length + b.length := List.length_append a b
  unfold Fits at hfit
  have hw0 : 0 ≤ write_index s := le_trans hinv.1 hinv.2.1
  obtain ⟨s1, hs1, hinv1, hsz1, hr1, hw1, hc1, hb1, hb2⟩ :=
    push_data_ok_inv a s (some ans1) hinv hsz (by unfold Fits; omega) (by simp)
  have hc1' : capacity s1 ≤ capacity s + a.length := by rw [hc1]; split <;> omega
  unfold capacity at hc1'
  obtain ⟨s2, hs2, -, -, hr2, hw2, -, hb3, hb4⟩ :=
    push_data_ok_inv b s1 (some ans2) hinv1 hsz1 (by unfold Fits; omega) (by simp)
  obtain ⟨t, ht, -, -, hrt, hwt, -, hb5, hb6⟩ :=
    push_data_ok_inv (a ++ b) s (some ans3) hinv hsz (by unfold Fits; omega) (by simp)
  refine ⟨s1, s2, t, hs1, hs2, ht, by rw [hr2, hr1, hrt], ?_, ?_⟩
  · rw [hw2, hw1, hwt, hlen]; push_cast; omega
  · have e1 : (write_index s1).toNat = (write_index s).toNat + a.length := by rw [hw1]; omega
    have e2 : (write_index s2).toNat = (write_index s).toNat + a.length + b.length := by
      rw [hw2, hw1]; omega
    have et : (write_index t).toNat = (write_index s).toNat + (a ++ b).length := by
      rw [hwt]; omega
    rw [e1] at hb3 hb4
    rw [e2, et, List.take_add, hb3, hb4, List.take_add, hb1, hb2, List.take_add, hb5, hb6,
      List.append_assoc]

/-- Witness of C12: three bytes pushed into a four-byte buffer with two free bytes, as `[9]`
then `[8, 7]` (the second push grows the buffer to six bytes) and as `[9, 8, 7]` at once
(which grows it to seven). -/
theorem push_data_chunking_witness :
    ∃ s1 s2 t : reassembly_state_t,
      push_data [9] 1 ⟨12, 11, ⟨10, [5, 6, 0, 0]⟩, 4⟩ (some ⟨40, []⟩) = .ok s1 ∧
      push_data [8, 7] 2 s1 (some ⟨50, []⟩) = .ok s2 ∧
      push_data [9, 8, 7] 3 ⟨12, 11, ⟨10, [5, 6, 0, 0]⟩, 4⟩ (some ⟨60, []⟩) = .ok t ∧
      read_index s2 = read_index t ∧
      write_index s2 = write_index t ∧
      (buffer s2).take (write_index s2).toNat = (buffer t).take (write_index t).toNat :=
  push_data_chunking ⟨12, 11, ⟨10, [5, 6, 0, 0]⟩, 4⟩ [9] [8, 7] ⟨40, []⟩ ⟨50, []⟩ ⟨60, []⟩
    (by decide) (by decide) (by decide)

/-- C13: free capacity never increases under `push_data`.  From a state satisfying the
invariant, a push that grows the buffer (the free capacity was smaller than `len(data)`)
leaves the free capacity exactly as it was, and a push that does not grow it lowers the free
capacity by `len(data)`.  So a sequence of pushes from the state `initialize_reass` returns
either aborts on a `realloc` that fails, or ends in a state whose free capacity is at most
1024. -/
theorem free_capacity_never_increases (s : reassembly_state_t) (data : List uint8_t)
    (ans : Option alloc_answer) (m_state m_buf : alloc_answer)
    (calls : List (List uint8_t × Option alloc_answer))
    (hinv : Inv s) (hsz : Sized s) (hfit : Fits s data.length)
    (hans : free_capacity s < data.length → ans ≠ none)
    (hfit0 : INITIALBUFFER + total_len calls < SIZE_MOD) :
    (∃ s' : reassembly_state_t, push_data data data.length s ans = .ok s' ∧
      (free_capacity s < data.length → free_capacity s' = free_capacity s) ∧
      ((data.length : Int) ≤ free_capacity s →
        free_capacity s' = free_capacity s - data.length) ∧
      free_capacity s' ≤ free_capacity s) ∧
    (∃ s0 : reassembly_state_t, initialize_reass (some m_state) (some m_buf) = .ok s0 ∧
      ((push_all calls s0 = .abort ∧ 1024 < total_len calls) ∨
        ∃ s' : reassembly_state_t, push_all calls s0 = .ok s' ∧
          0 ≤ free_capacity s' ∧ free_capacity s' ≤ 1024)) := by
  constructor
  · obtain ⟨s', hs', -, -, -, hw', hc', -⟩ := push_data_ok_inv data s ans hinv hsz hfit hans
    have hf : free_capacity s' = (if free_capacity s < data.length
        then free_capacity s else free_capacity s - data.length) := by
      unfold free_capacity at *
      rw [hw', hc']
      split <;> push_cast <;> omega
    refine ⟨s', hs', ?_, ?_, ?_⟩
    · intro hg; rw [hf, if_pos hg]
    · intro hg; rw [hf, if_neg (by omega)]
    · rw [hf]; split <;> omega
  · obtain ⟨s0, hs0, hinv0, hsz0, hr0, hw0, hc0⟩ := initialize_reass_ok m_state m_buf
    have hI : INITIALBUFFER = 1024 := rfl
    have hf0 : free_capacity s0 = 1024 := by
      unfold free_capacity; rw [hc0, hw0, hI]; rfl
    refine ⟨s0, hs0, ?_⟩
    rcases push_all_run calls s0 hinv0 hsz0 (by rw [hc0]; exact hfit0) with
      ⟨hab, hlt⟩ | ⟨s', hs', hinv', -, -, -, hf', -⟩
    · left
      rw [hf0] at hlt
      exact ⟨hab, by exact_mod_cast hlt⟩
    · right
      refine ⟨s', hs', ?_, by rw [hf0] at hf'; exact hf'⟩
      have := hinv'.2.2
      unfold free_capacity
      omega

/-- Witness of C13: a push that grows a three-byte buffer, and the two pushes of `main`. -/
theorem free_capacity_never_increases_witness :
    (∃ s' : reassembly_state_t,
      push_data [9, 8] 2 ⟨12, 11, ⟨10, [5, 6, 7]⟩, 3⟩ (some ⟨50, []⟩) = .ok s' ∧
      (free_capacity ⟨12, 11, ⟨10, [5, 6, 7]⟩, 3⟩ < (2 : Nat) →
        free_capacity s' = free_capacity ⟨12, 11, ⟨10, [5, 6, 7]⟩, 3⟩) ∧
      (((2 : Nat) : Int) ≤ free_capacity ⟨12, 11, ⟨10, [5, 6, 7]⟩, 3⟩ →
        free_capacity s' = free_capacity ⟨12, 11, ⟨10, [5, 6, 7]⟩, 3⟩ - (2 : Nat)) ∧
      free_capacity s' ≤ free_capacity ⟨12, 11, ⟨10, [5, 6, 7]⟩, 3⟩) ∧
    (∃ s0 : reassembly_state_t,
      initialize_reass (some ⟨4096, []⟩) (some ⟨8192, []⟩) = .ok s0 ∧
      ((push_all [(main_data, none), (main_data, none)] s0 = .abort ∧
          1024 < total_len [(main_data, none), (main_data, none)]) ∨
        ∃ s' : reassembly_state_t,
          push_all [(main_data, none), (main_data, none)] s0 = .ok s' ∧
            0 ≤ free_capacity s' ∧ free_capacity s' ≤ 1024)) :=
  free_capacity_never_increases ⟨12, 11, ⟨10, [5, 6, 7]⟩, 3⟩ [9, 8] (some ⟨50, []⟩)
    ⟨4096, []⟩ ⟨8192, []⟩ [(main_data, none), (main_data, none)]
    (by decide) (by decide) (by decide) (by simp) (by decide)

/-- C14: from the state `initialize_reass` returns, a sequence of pushes either aborts on a
`realloc` that fails (more than 1024 bytes were to be pushed then), or ends in a state whose
capacity is 1024 if and only if at most 1024 bytes were pushed in all.  In particular the two
pushes of seven bytes of `main` return whatever the allocator would answer, keep the
capacity at 1024 and leave the buffer at its address. -/
theorem capacity_initial_iff (m_state m_buf : alloc_answer)
    (calls : List (List uint8_t × Option alloc_answer)) (a1 a2 : Option alloc_answer)
    (hfit0 : INITIALBUFFER + total_len calls < SIZE_MOD) :
    ∃ s0 : reassembly_state_t, initialize_reass (some m_state) (some m_buf) = .ok s0 ∧
      ((push_all calls s0 = .abort ∧ 1024 < total_len calls) ∨
        ∃ s' : reassembly_state_t, push_all calls s0 = .ok s' ∧
          (capacity s' = 1024 ↔ total_len calls ≤ 1024)) ∧
      ∃ s1 s2 : reassembly_state_t,
        push_data main_data main_data.length s0 a1 = .ok s1 ∧
        push_data main_data main_data.length s1 a2 = .ok s2 ∧
        capacity s1 = 1024 ∧ capacity s2 = 1024 ∧
        s1.incomplete.addr = s0.incomplete.addr ∧
        s2.incomplete.addr = s0.incomplete.addr := by
  obtain ⟨s0, hs0, hinv0, hsz0, hr0, hw0, hc0⟩ := initialize_reass_ok m_state m_buf
  have hI : INITIALBUFFER = 1024 := rfl
  have hS : SIZE_MOD = 2 ^ 64 := rfl
  have hf0 : free_capacity s0 = 1024 := by
    unfold free_capacity; rw [hc0, hw0, hI]; rfl
  refine ⟨s0, hs0, ?_, ?_⟩
  · rcases push_all_run calls s0 hinv0 hsz0 (by rw [hc0]; exact hfit0) with
      ⟨hab, hlt⟩ | ⟨s', hs', -, -, -, -, -, hc', -⟩
    · left
      rw [hf0] at hlt
      exact ⟨hab, by exact_mod_cast hlt⟩
    · right
      refine ⟨s', hs', ?_⟩
      rw [hc0, hf0, hI] at hc'
      rw [hc']
      constructor <;> intro h <;> omega
  · have hl : main_data.length = 7 := rfl
    have hcap0 : s0.incomplete_len = 1024 := hc0
    obtain ⟨s1, hs1, hinv1, hsz1, -, hw1, hc1, -⟩ :=
      push_data_ok_inv main_data s0 a1 hinv0 hsz0 (by unfold Fits; rw [hcap0, hl, hS]; omega)
        (by intro h; rw [hf0, hl] at h; omega)
    have hm1 := push_data_no_move main_data s0 s1 a1 (le_trans hinv0.1 hinv0.2.1) hinv0.2.2
      hsz0 (by unfold Fits; rw [hcap0, hl, hS]; omega) (by rw [hf0, hl]; omega) hs1
    rw [if_neg (by rw [hf0, hl]; omega), hc0, hI] at hc1
    have hcap1 : s1.incomplete_len = 1024 := hc1
    have hf1 : free_capacity s1 = 1017 := by
      unfold free_capacity; rw [hc1, hw1, hw0, hl]; omega
    obtain ⟨s2, hs2, -, -, -, -, hc2, -⟩ :=
      push_data_ok_inv main_data s1 a2 hinv1 hsz1 (by unfold Fits; rw [hcap1, hl, hS]; omega)
        (by intro h; rw [hf1, hl] at h; omega)
    have hm2 := push_data_no_move main_data s1 s2 a2 (le_trans hinv1.1 hinv1.2.1) hinv1.2.2
      hsz1 (by unfold Fits; rw [hcap1, hl, hS]; omega) (by rw [hf1, hl]; omega) hs2
    rw [if_neg (by rw [hf1, hl]; omega), hc1] at hc2
    exact ⟨s1, s2, hs1, hs2, hc1, hc2, hm1, by rw [hm2, hm1]⟩

/-- Witness of C14: three pushes of 1000, 24 and 1 bytes, the last of which grows the
buffer. -/
theorem capacity_initial_iff_witness :
    ∃ s0 : reassembly_state_t,
      initialize_reass (some ⟨4096, []⟩) (some ⟨8192, []⟩) = .ok s0 ∧
      ((push_all [(List.replicate 1000 0, none), (List.replicate 24 1, none),
            ([2], some ⟨16384, []⟩)] s0 = .abort ∧
          1024 < total_len [(List.replicate 1000 0, none), (List.replicate 24 1, none),
            ([2], some ⟨16384, []⟩)]) ∨
        ∃ s' : reassembly_state_t,
          push_all [(List.replicate 1000 0, none), (List.replicate 24 1, none),
            ([2], some ⟨16384, []⟩)] s0 = .ok s' ∧
          (capacity s' = 1024 ↔
            total_len [(List.replicate 1000 0, none), (List.replicate 24 1, none),
              ([2], some ⟨16384, []⟩)] ≤ 1024)) ∧
      ∃ s1 s2 : reassembly_state_t,
        push_data main_data main_data.length s0 none = .ok s1 ∧
        push_data main_data main_data.length s1 none = .ok s2 ∧
        capacity s1 = 1024 ∧ capacity s2 = 1024 ∧
        s1.incomplete.addr = s0.incomplete.addr ∧
        s2.incomplete.addr = s0.incomplete.addr :=
  capacity_initial_iff ⟨4096, []⟩ ⟨8192, []⟩
    [(List.replicate 1000 0, none), (List.replicate 24 1, none), ([2], some ⟨16384, []⟩)]
    none none
    (by
      simp only [total_len, List.map_cons, List.map_nil, List.length_replicate,
        List.length_cons, List.length_nil, List.sum_cons, List.sum_nil, INITIALBUFFER, SIZE_MOD]
      decide)

end Mimocat
